import Mathlib

/-!
Shallow embedding of `src/main.py` (AutoRSS bot): the Gemini thread
synthesizer (`summarize_with_gemini`), the Twitter thread publisher
(`post_to_twitter`), the processed-set store (`load_processed_posts`,
`save_processed_post`) and the orchestrator (`main`).

External collaborators (the Gemini backend, `json.loads`, the tweepy
`create_tweet` call) are modelled as oracle parameters; the control flow
around them is translated literally from the Python source.
-/

set_option maxRecDepth 4096

/-- The opening-brace character, written with an escape. -/
def lbrace : Char := '\x7b'

/-- The closing-brace character, written with an escape. -/
def rbrace : Char := '\x7d'

/-- A parsed JSON value, as produced by Python's `json.loads`. -/
inductive JVal where
  | null
  | bool (b : Bool)
  | num (n : Int)
  | str (s : String)
  | arr (elems : List JVal)
  | obj (fields : List (String × JVal))

/-- Python truthiness (`if v:`) on a JSON value: `None`, `False`, `0`,
`""`, `[]` and an empty dict are falsy, everything else truthy. -/
def pyFalsy : JVal → Bool
  | .null => true
  | .bool b => !b
  | .num n => n = 0
  | .str s => s = ""
  | .arr es => es.isEmpty
  | .obj fs => fs.isEmpty

/-- Python truthiness of an optional value (`None` is falsy). -/
def optTruthy : Option JVal → Bool
  | none => false
  | some v => !pyFalsy v

/-- Python `dict.get(key)` on a parsed JSON value.  In `main` the value
comes from `json.loads` of a substring starting at a brace, hence it is
always a dict; the non-dict fallback `none` is unreachable there. -/
def dictGet (v : JVal) (key : String) : Option JVal :=
  match v with
  | .obj fs => (fs.find? (fun kv => kv.1 == key)).map (fun kv => kv.2)
  | _ => none

/-- Python iteration (`for x in v`) over a JSON value: a list yields its
elements, a string its characters, a dict its keys.  Iterating a number,
boolean or `None` raises `TypeError` in Python; the pipeline only reaches
this with the `twitter_thread` array, so that case is left as `[]`. -/
def asPyList : JVal → List JVal
  | .arr es => es
  | .str s => s.data.map (fun c => .str c.toString)
  | .obj fs => fs.map (fun kv => .str kv.1)
  | _ => []

/-- Outcome of one Gemini `generate_content` call (`summarize_with_gemini`
lines 55-67): an empty/blocked response (`response.text` falsy), a raw
response text, or an exception escaping the call. -/
inductive GenResult where
  | emptyResp
  | text (t : List Char)
  | exn

/-- Index of the first occurrence of `c` (Python `str.find`, as an
`Option` instead of `-1`). -/
def firstIdxOf (l : List Char) (c : Char) : Option Nat :=
  l.findIdx? (fun d => d == c)

/-- Index of the last occurrence of `c` (Python `str.rfind`, as an
`Option` instead of `-1`). -/
def lastIdxOf (l : List Char) (c : Char) : Option Nat :=
  match l.reverse.findIdx? (fun d => d == c) with
  | none => none
  | some k => some (l.length - 1 - k)

/-- Lines 70-78 of `main.py`: locate the first opening brace and the last
closing brace of the response text; if both exist, slice
`text[json_start : json_end + 1]` (Python slice semantics: empty when the
last closing brace precedes the first opening brace). -/
def extractJson (t : List Char) : Option (List Char) :=
  match firstIdxOf t lbrace, lastIdxOf t rbrace with
  | some i, some j => some ((t.drop i).take (j + 1 - i))
  | _, _ => none

/-- What one loop iteration of `summarize_with_gemini` does with the
backend outcome, before the retry bookkeeping. -/
inductive AttStep where
  | success (v : JVal)
  | retryNoSleep
  | retrySleep

/-- Classification of one attempt of `summarize_with_gemini`
(lines 55-86).  An empty response or a response without both braces hits
`continue`, which jumps past the `time.sleep(2)` at the bottom of the
loop; a `json.loads` failure or a backend exception falls through to the
sleep; a successful parse returns immediately. -/
def attStep (parse : List Char → Option JVal) : GenResult → AttStep
  | .emptyResp => .retryNoSleep
  | .exn => .retrySleep
  | .text t =>
    match extractJson t with
    | none => .retryNoSleep
    | some s =>
      match parse s with
      | some v => .success v
      | none => .retrySleep

/-- Observable trace of one `summarize_with_gemini` call: the returned
value (`none` models Python `None`), how many `time.sleep(2)` calls were
made, and how many attempts were used. -/
structure SynthRun where
  result : Option JVal
  sleeps : Nat
  tries : Nat

/-- The retry loop `for i in range(3)` of `summarize_with_gemini`,
starting at attempt index `i` with `fuel` iterations left.  The sleep is
guarded by `if i < 2` and is reached only on the exception paths. -/
def summarizeFrom (parse : List Char → Option JVal) (oracle : Nat → GenResult) :
    Nat → Nat → SynthRun
  | _, 0 => ⟨none, 0, 0⟩
  | i, f + 1 =>
    match attStep parse (oracle i) with
    | .success v => ⟨some v, 0, 1⟩
    | .retryNoSleep =>
      let r := summarizeFrom parse oracle (i + 1) f
      ⟨r.result, r.sleeps, r.tries + 1⟩
    | .retrySleep =>
      let r := summarizeFrom parse oracle (i + 1) f
      ⟨r.result, (if i < 2 then 1 else 0) + r.sleeps, r.tries + 1⟩

/-- `summarize_with_gemini` (lines 32-92): up to 3 attempts, returning the
first successfully parsed JSON value, else `None`.  `parse` models
`json.loads` (returning `none` on `JSONDecodeError`), `oracle i` the
backend outcome of attempt `i`. -/
def summarize_with_gemini (parse : List Char → Option JVal)
    (oracle : Nat → GenResult) : SynthRun :=
  summarizeFrom parse oracle 0 3

/-- Observable trace of one `post_to_twitter` call: the successfully
created tweets, each with its text and the `in_reply_to_tweet_id`
argument it was posted with, and whether the function returned `True`. -/
structure PubTrace where
  posted : List (JVal × Option String)
  success : Bool

/-- The posting loop of `post_to_twitter` (lines 108-120).  `oracle i` is
the outcome of the `i`-th `create_tweet` call: `some id` for the created
tweet id, `none` for a raised exception (caught at line 121, returning
`False`).  `last` is `last_tweet_id`; the reply argument is attached only
when `last_tweet_id` is truthy (not `None` and not the empty string). -/
def postAux (oracle : Nat → Option String) :
    List JVal → Nat → Option String → List (JVal × Option String) × Bool
  | [], _, _ => ([], true)
  | t :: ts, i, last =>
    let reply : Option String :=
      match last with
      | some s => if s = "" then none else some s
      | none => none
    match oracle i with
    | none => ([], false)
    | some nid =>
      let r := postAux oracle ts (i + 1) (some nid)
      ((t, reply) :: r.1, r.2)

/-- `post_to_twitter` (lines 94-123): with missing credentials it returns
`None` before any network call (modelled as an unsuccessful empty trace);
otherwise it runs the posting loop from a `None` `last_tweet_id`. -/
def post_to_twitter (creds : Bool) (oracle : Nat → Option String)
    (thread : List JVal) : PubTrace :=
  if creds then
    let r := postAux oracle thread 0 none
    ⟨r.1, r.2⟩
  else ⟨[], false⟩

/-- The reply chain the loop produces when the `create_tweet` calls from
index `i` on succeed: each segment is paired with the parent passed for
it — `last` for the first segment, then the id returned by call `i` for
the next, and so on. -/
def chainFrom (oracle : Nat → Option String) :
    List JVal → Nat → Option String → List (JVal × Option String)
  | [], _, _ => []
  | t :: ts, i, last => (t, last) :: chainFrom oracle ts (i + 1) (oracle i)

/-- One feed entry as `main` reads it: `post.get('id', post.link)`,
`post.title`, `post.link`, `post.get('summary')`. -/
structure FeedPost where
  idOpt : Option String
  title : String
  link : String
  summaryOpt : Option String

/-- `post.get('id', post.link)` (line 149). -/
def pidOf (p : FeedPost) : String := p.idOpt.getD p.link

/-- Observable trace of one `main` run: the ids of the items for which
`summarize_with_gemini` was invoked, the publisher invocations (thread
value passed and resulting trace), and the `save_processed_post` calls. -/
structure RunTrace where
  synthed : List String
  pubEvents : List (JVal × PubTrace)
  commits : List String

/-- The `for post in posts` loop of `main` (lines 148-177), translated
branch by branch: already-processed ids are passed over; a missing or
empty (falsy) summary hits `continue`; a falsy synthesis result
(`if not social_posts`) hits `continue`; otherwise the item reaches the
dispatch on `twitter_thread` and the loop ends with `break`, committing on
publish success or on a falsy/absent thread, and not committing on
publish failure.  `synth` abstracts the `summarize_with_gemini` call for
an item, `pub` the `post_to_twitter` call on the thread value. -/
def mainLoop (processed : List String) (synth : FeedPost → Option JVal)
    (pub : JVal → PubTrace) : List FeedPost → RunTrace
  | [] => ⟨[], [], []⟩
  | p :: ps =>
    if pidOf p ∈ processed then mainLoop processed synth pub ps
    else
      match p.summaryOpt with
      | none => mainLoop processed synth pub ps
      | some s =>
        if s = "" then mainLoop processed synth pub ps
        else
          match synth p with
          | none =>
            let r := mainLoop processed synth pub ps
            ⟨pidOf p :: r.synthed, r.pubEvents, r.commits⟩
          | some sp =>
            if pyFalsy sp then
              let r := mainLoop processed synth pub ps
              ⟨pidOf p :: r.synthed, r.pubEvents, r.commits⟩
            else
              match dictGet sp "twitter_thread" with
              | some tt =>
                if pyFalsy tt then ⟨[pidOf p], [], [pidOf p]⟩
                else
                  let t := pub tt
                  if t.success then ⟨[pidOf p], [(tt, t)], [pidOf p]⟩
                  else ⟨[pidOf p], [(tt, t)], []⟩
              | none => ⟨[pidOf p], [], [pidOf p]⟩

/-- `main` (lines 137-179): abort with no side effects when
`GOOGLE_API_KEY` is absent, else run the loop over the fetched feed with
the loaded processed-set. -/
def main_run (googleKey : Bool) (processed : List String)
    (synth : FeedPost → Option JVal) (pub : JVal → PubTrace)
    (feed : List FeedPost) : RunTrace :=
  if googleKey then mainLoop processed synth pub feed else ⟨[], [], []⟩

/-- Python `str.strip()` default whitespace characters (ASCII range; the
identifiers at play are URLs). -/
def pyIsSpace (c : Char) : Bool :=
  c = ' ' || c = '\t' || c = '\n' || c = '\r' || c = '\x0b' || c = '\x0c'

/-- Python `str.strip()`: drop whitespace from both ends. -/
def pyStrip (l : List Char) : List Char :=
  ((l.dropWhile pyIsSpace).reverse.dropWhile pyIsSpace).reverse

/-- Split a character sequence at every newline, keeping the pieces
without their terminators; the last piece is whatever follows the final
newline (possibly empty). -/
def linesAux : List Char → List (List Char)
  | [] => [[]]
  | c :: cs =>
    let r := linesAux cs
    if c = '\n' then [] :: r
    else
      match r with
      | [] => [[c]]
      | h :: t => (c :: h) :: t

/-- The lines Python's file iteration yields (up to the trailing `'\n'`
each keeps, which the subsequent `strip` removes anyway): the pieces
between newlines, without a final empty piece when the file ends in a
newline or is empty. -/
def pyFileLines (f : List Char) : List (List Char) :=
  let r := linesAux f
  if r.getLast? = some [] then r.dropLast else r

/-- `load_processed_posts` (lines 125-130): `set(line.strip() for line in f)`
over the file content `f`; a missing file is the empty content.  The set
is represented as the list of stripped lines (membership is what `main`
uses). -/
def load_processed_posts (f : List Char) : List (List Char) :=
  (pyFileLines f).map pyStrip

/-- `save_processed_post` (lines 132-135): append `url + "\n"` to the
file. -/
def save_processed_post (f : List Char) (url : List Char) : List Char :=
  f ++ url ++ ['\n']

/-- Attempt classification, as a Boolean: does attempt `m` fall on the
exception (sleeping) retry path? -/
def isSleepClass (parse : List Char → Option JVal) (oracle : Nat → GenResult)
    (m : Nat) : Bool :=
  match attStep parse (oracle m) with
  | .retrySleep => true
  | _ => false

/-- The attempt indices in `[i, i + n)` whose failure falls on the
exception path and which are followed by a `time.sleep(2)` (the guard
`if i < 2` of line 88). -/
def sleepIdx (parse : List Char → Option JVal) (oracle : Nat → GenResult)
    (i n : Nat) : List Nat :=
  ((List.range n).map (fun m => i + m)).filter
    (fun m => isSleepClass parse oracle m && decide (m < 2))

/- Concrete fixtures used by witnesses and counterexamples. -/

/-- Tweet-id oracle whose first `create_tweet` call returns id `"100"` and
whose second call raises. -/
def oracleC1 : Nat → Option String := fun m => if m = 0 then some "100" else none

/-- A three-segment thread. -/
def segsC1 : List JVal := [.str "s1", .str "s2", .str "s3"]

/-- A feed item with an id and a summary. -/
def postC1 : FeedPost := ⟨some "u1", "t1", "l1", some "sum1"⟩

/-- Synthesis returning a thread of three segments. -/
def synthC1 : FeedPost → Option JVal :=
  fun _ => some (.obj [("twitter_thread", .arr segsC1)])

/-- A feed item with no summary text. -/
def postNoSum : FeedPost := ⟨some "uA", "tA", "lA", none⟩

/-- A feed item with a summary. -/
def postGood : FeedPost := ⟨some "uB", "tB", "lB", some "sB"⟩

/-- Synthesis that always fails. -/
def synthNone : FeedPost → Option JVal := fun _ => none

/-- Publisher that posts nothing and fails. -/
def pubNone : JVal → PubTrace := fun _ => ⟨[], false⟩

/-- A parsed JSON object with a single unrelated key. -/
def objA : JVal := .obj [("a", .num 1)]

/-- The raw text of `objA`. -/
def textA : List Char := "\x7b\"a\":1\x7d".data

/-- A `json.loads` oracle agreeing with Python on `textA`. -/
def parseA : List Char → Option JVal :=
  fun s => if s = textA then some objA else none

/-- Backend oracle answering `textA` on every attempt. -/
def oracleTextA : Nat → GenResult := fun _ => .text textA

/-- A feed item with an id and a summary. -/
def postC5 : FeedPost := ⟨some "u5", "t5", "l5", some "s5"⟩

/-- Synthesis returning the empty JSON object. -/
def synthEmptyObj : FeedPost → Option JVal := fun _ => some (.obj [])

/-- Synthesis returning a non-empty object without a `twitter_thread`
key. -/
def synthNoThread : FeedPost → Option JVal := fun _ => some (.obj [("x", .num 1)])

/-- Tweet-id oracle succeeding on the first two calls. -/
def oracleW7 : Nat → Option String :=
  fun m => if m = 0 then some "1" else if m = 1 then some "2" else none

/-- A two-segment thread. -/
def threadW7 : List JVal := [.str "x", .str "y"]

/-- A backend response wrapping a valid JSON object in prose and markdown
fencing. -/
def fenceT : List Char :=
  "Here you go:\n```json\n\x7b\"twitter_thread\":[\"a\",\"b\"]\x7d\n```".data

/-- The JSON object inside `fenceT`, parsed. -/
def objFence : JVal := .obj [("twitter_thread", .arr [.str "a", .str "b"])]

/-- The JSON substring of `fenceT`. -/
def jsonFence : List Char := "\x7b\"twitter_thread\":[\"a\",\"b\"]\x7d".data

/-- A `json.loads` oracle agreeing with Python on `jsonFence`. -/
def parseFence : List Char → Option JVal :=
  fun s => if s = jsonFence then some objFence else none

/-- Backend oracle answering `fenceT` on every attempt. -/
def oracleFence : Nat → GenResult := fun _ => .text fenceT

/-! ## Publisher lemmas -/

lemma postAux_success_all (oracle : Nat → Option String) :
    ∀ (th : List JVal) (i : Nat) (last : Option String),
      (postAux oracle th i last).2 = true →
      ∀ m, m < th.length → (oracle (i + m)).isSome := by
  intro th
  induction th with
  | nil => intro i last _ m hm; simp at hm
  | cons t ts ih =>
    intro i last h m hm
    cases ho : oracle i with
    | none => simp [postAux, ho] at h
    | some nid =>
      cases m with
      | zero => simp [ho]
      | succ m' =>
        have h2 : (postAux oracle ts (i + 1) (some nid)).2 = true := by
          simpa [postAux, ho] using h
        have := ih (i + 1) (some nid) h2 m' (by simpa using Nat.lt_of_succ_lt_succ (by simpa using hm))
        have harith : i + 1 + m' = i + (m' + 1) := by omega
        rwa [harith] at this

lemma postAux_eq_chain (oracle : Nat → Option String)
    (hid : ∀ k s, oracle k = some s → s ≠ "") :
    ∀ (th : List JVal) (i : Nat) (last : Option String),
      (∀ s, last = some s → s ≠ "") →
      (∀ m, m < th.length → (oracle (i + m)).isSome) →
      postAux oracle th i last = (chainFrom oracle th i last, true) := by
  intro th
  induction th with
  | nil => intro i last _ _; simp [postAux, chainFrom]
  | cons t ts ih =>
    intro i last hl hok
    have h0 : (oracle i).isSome := by simpa using hok 0 (by simp)
    obtain ⟨nid, hnid⟩ := Option.isSome_iff_exists.mp h0
    have hok2 : ∀ m, m < ts.length → (oracle (i + 1 + m)).isSome := by
      intro m hm
      have := hok (m + 1) (by simpa using Nat.succ_lt_succ hm)
      have harith : i + (m + 1) = i + 1 + m := by omega
      rwa [harith] at this
    have hl2 : ∀ s, (some nid : Option String) = some s → s ≠ "" := by
      intro s hs
      cases hs
      exact hid i nid hnid
    have hrec := ih (i + 1) (some nid) hl2 hok2
    cases last with
    | none => simp [postAux, hnid, hrec, chainFrom]
    | some ls =>
      have hls : ls ≠ "" := hl ls rfl
      simp [postAux, hnid, hls, hrec, chainFrom]

lemma postAux_fail_chain (oracle : Nat → Option String)
    (hid : ∀ k s, oracle k = some s → s ≠ "") :
    ∀ (th : List JVal) (i : Nat) (last : Option String) (k : Nat),
      (∀ s, last = some s → s ≠ "") →
      k < th.length → oracle (i + k) = none →
      (∀ m, m < k → (oracle (i + m)).isSome) →
      postAux oracle th i last = (chainFrom oracle (th.take k) i last, false) := by
  intro th
  induction th with
  | nil => intro i last k _ hk; simp at hk
  | cons t ts ih =>
    intro i last k hl hk hfail hbef
    cases k with
    | zero =>
      have h0 : oracle i = none := by simpa using hfail
      simp [postAux, h0, chainFrom]
    | succ k' =>
      have h0 : (oracle i).isSome := by simpa using hbef 0 (by omega)
      obtain ⟨nid, hnid⟩ := Option.isSome_iff_exists.mp h0
      have hfail2 : oracle (i + 1 + k') = none := by
        have harith : i + 1 + k' = i + (k' + 1) := by omega
        rwa [harith]
      have hbef2 : ∀ m, m < k' → (oracle (i + 1 + m)).isSome := by
        intro m hm
        have := hbef (m + 1) (by omega)
        have harith : i + (m + 1) = i + 1 + m := by omega
        rwa [harith] at this
      have hl2 : ∀ s, (some nid : Option String) = some s → s ≠ "" := by
        intro s hs
        cases hs
        exact hid i nid hnid
      have hk2 : k' < ts.length := by simpa using Nat.lt_of_succ_lt_succ (by simpa using hk)
      have hrec := ih (i + 1) (some nid) k' hl2 hk2 hfail2 hbef2
      cases last with
      | none => simp [postAux, hnid, hrec, chainFrom, List.take]
      | some ls =>
        have hls : ls ≠ "" := hl ls rfl
        simp [postAux, hnid, hls, hrec, chainFrom, List.take]

lemma chainFrom_map_fst (oracle : Nat → Option String) :
    ∀ (th : List JVal) (i : Nat) (last : Option String),
      (chainFrom oracle th i last).map Prod.fst = th := by
  intro th
  induction th with
  | nil => intro i last; simp [chainFrom]
  | cons t ts ih => intro i last; simp [chainFrom, ih]

lemma chainFrom_length (oracle : Nat → Option String) :
    ∀ (th : List JVal) (i : Nat) (last : Option String),
      (chainFrom oracle th i last).length = th.length := by
  intro th i last
  have := chainFrom_map_fst oracle th i last
  calc (chainFrom oracle th i last).length
      = ((chainFrom oracle th i last).map Prod.fst).length := by simp
    _ = th.length := by rw [this]

lemma chainFrom_snd_succ (oracle : Nat → Option String) :
    ∀ (th : List JVal) (i : Nat) (last : Option String) (k : Nat),
      k + 1 < th.length →
      ((chainFrom oracle th i last).map Prod.snd)[k + 1]? = some (oracle (i + k)) := by
  intro th
  induction th with
  | nil => intro i last k hk; simp at hk
  | cons t ts ih =>
    intro i last k hk
    cases k with
    | zero =>
      cases ts with
      | nil => simp at hk
      | cons t2 ts2 => simp [chainFrom]
    | succ k' =>
      have hk2 : k' + 1 < ts.length := by simpa using Nat.lt_of_succ_lt_succ (by simpa using hk)
      have := ih (i + 1) (oracle i) k' hk2
      have harith : i + 1 + k' = i + (k' + 1) := by omega
      rw [harith] at this
      simpa [chainFrom] using this

/-! ## Synthesizer lemmas -/

lemma summarizeFrom_tries_le (parse : List Char → Option JVal)
    (oracle : Nat → GenResult) :
    ∀ (f i : Nat), (summarizeFrom parse oracle i f).tries ≤ f := by
  intro f
  induction f with
  | zero => intro i; simp [summarizeFrom]
  | succ f ih =>
    intro i
    cases h : attStep parse (oracle i) with
    | success v => simp [summarizeFrom, h]
    | retryNoSleep =>
      have := ih (i + 1)
      simp [summarizeFrom, h]
      omega
    | retrySleep =>
      have := ih (i + 1)
      simp [summarizeFrom, h]
      omega

lemma summarizeFrom_sleeps_eq (parse : List Char → Option JVal)
    (oracle : Nat → GenResult) :
    ∀ (f i : Nat),
      (summarizeFrom parse oracle i f).sleeps =
        (sleepIdx parse oracle i (summarizeFrom parse oracle i f).tries).length := by
  intro f
  induction f with
  | zero => intro i; simp [summarizeFrom, sleepIdx]
  | succ f ih =>
    intro i
    have hmap : ∀ n : Nat,
        (List.range (n + 1)).map (fun m => i + m) =
          i :: (List.range n).map (fun m => i + 1 + m) := by
      intro n
      rw [List.range_succ_eq_map]
      simp only [List.map_cons, List.map_map, Nat.add_zero]
      congr 1
      apply List.map_congr_left
      intro m _
      simp only [Function.comp_apply]
      omega
    cases h : attStep parse (oracle i) with
    | success v =>
      simp [summarizeFrom, h, sleepIdx, List.range_succ, isSleepClass]
    | retryNoSleep =>
      have hrec := ih (i + 1)
      simp only [summarizeFrom, h]
      rw [sleepIdx, hmap]
      rw [List.filter_cons]
      have hcls : isSleepClass parse oracle i = false := by
        simp [isSleepClass, h]
      simp only [hcls, Bool.false_and, if_neg (by simp : ¬(false = true))]
      exact hrec.trans (by rw [sleepIdx])
    | retrySleep =>
      have hrec := ih (i + 1)
      simp only [summarizeFrom, h]
      rw [sleepIdx, hmap]
      rw [List.filter_cons]
      have hcls : isSleepClass parse oracle i = true := by
        simp [isSleepClass, h]
      simp only [sleepIdx] at hrec
      by_cases hi : i < 2
      · have hcond : (isSleepClass parse oracle i && decide (i < 2)) = true := by
          simp [hcls, hi]
        rw [hcond, if_pos rfl, if_pos hi]
        simp only [List.length_cons]
        omega
      · have hcond : (isSleepClass parse oracle i && decide (i < 2)) = false := by
          simp [hi]
        rw [hcond, if_neg hi, if_neg (show ¬(false = true) by simp)]
        omega

/-! ## Orchestrator lemmas -/

lemma mainLoop_props (processed : List String) (synth : FeedPost → Option JVal)
    (pub : JVal → PubTrace) : ∀ feed : List FeedPost,
    (mainLoop processed synth pub feed).commits.length ≤ 1
    ∧ (∀ a, a ∈ (mainLoop processed synth pub feed).synthed → a ∉ processed)
    ∧ (∀ a, a ∈ (mainLoop processed synth pub feed).commits → a ∉ processed)
    ∧ ((∀ p, p ∈ feed → pidOf p ∈ processed) →
        mainLoop processed synth pub feed = ⟨[], [], []⟩) := by
  intro feed
  induction feed with
  | nil => simp [mainLoop]
  | cons p ps ih =>
    obtain ⟨ih1, ih2, ih3, ih4⟩ := ih
    by_cases hmem : pidOf p ∈ processed
    · have he : mainLoop processed synth pub (p :: ps) = mainLoop processed synth pub ps := by
        simp [mainLoop, hmem]
      rw [he]
      exact ⟨ih1, ih2, ih3, fun hall => ih4 (fun q hq => hall q (List.mem_cons_of_mem p hq))⟩
    · have hlast : (∀ q, q ∈ p :: ps → pidOf q ∈ processed) →
          mainLoop processed synth pub (p :: ps) = ⟨[], [], []⟩ := by
        intro hall
        exact absurd (hall p (List.mem_cons_self p ps)) hmem
      cases hsum : p.summaryOpt with
      | none =>
        have he : mainLoop processed synth pub (p :: ps) = mainLoop processed synth pub ps := by
          simp [mainLoop, hmem, hsum]
        rw [he] at hlast ⊢
        exact ⟨ih1, ih2, ih3, hlast⟩
      | some s =>
        by_cases hs : s = ""
        · have he : mainLoop processed synth pub (p :: ps) = mainLoop processed synth pub ps := by
            simp [mainLoop, hmem, hsum, hs]
          rw [he] at hlast ⊢
          exact ⟨ih1, ih2, ih3, hlast⟩
        · cases hsyn : synth p with
          | none =>
            have he : mainLoop processed synth pub (p :: ps) =
                ⟨pidOf p :: (mainLoop processed synth pub ps).synthed,
                 (mainLoop processed synth pub ps).pubEvents,
                 (mainLoop processed synth pub ps).commits⟩ := by
              simp [mainLoop, hmem, hsum, hs, hsyn]
            rw [he] at hlast ⊢
            refine ⟨ih1, ?_, ih3, hlast⟩
            intro a ha
            rcases List.mem_cons.mp ha with rfl | ha2
            · exact hmem
            · exact ih2 a ha2
          | some sp =>
            by_cases hvf : pyFalsy sp
            · have he : mainLoop processed synth pub (p :: ps) =
                  ⟨pidOf p :: (mainLoop processed synth pub ps).synthed,
                   (mainLoop processed synth pub ps).pubEvents,
                   (mainLoop processed synth pub ps).commits⟩ := by
                simp [mainLoop, hmem, hsum, hs, hsyn, hvf]
              rw [he] at hlast ⊢
              refine ⟨ih1, ?_, ih3, hlast⟩
              intro a ha
              rcases List.mem_cons.mp ha with rfl | ha2
              · exact hmem
              · exact ih2 a ha2
            · have hone : ∀ ev cm, cm = [pidOf p] ∨ cm = ([] : List String) →
                  mainLoop processed synth pub (p :: ps) = ⟨[pidOf p], ev, cm⟩ →
                  (mainLoop processed synth pub (p :: ps)).commits.length ≤ 1
                  ∧ (∀ a, a ∈ (mainLoop processed synth pub (p :: ps)).synthed → a ∉ processed)
                  ∧ (∀ a, a ∈ (mainLoop processed synth pub (p :: ps)).commits → a ∉ processed)
                  ∧ ((∀ q, q ∈ p :: ps → pidOf q ∈ processed) →
                      mainLoop processed synth pub (p :: ps) = ⟨[], [], []⟩) := by
                intro ev cm hcm he
                rw [he]
                refine ⟨?_, ?_, ?_, fun hall => absurd (hall p (List.mem_cons_self p ps)) hmem⟩
                · rcases hcm with rfl | rfl <;> simp
                · intro a ha
                  rcases List.mem_singleton.mp ha with rfl
                  exact hmem
                · intro a ha
                  rcases hcm with rfl | rfl
                  · rcases List.mem_singleton.mp ha with rfl
                    exact hmem
                  · simp at ha
              cases htt : dictGet sp "twitter_thread" with
              | none =>
                exact hone [] [pidOf p] (Or.inl rfl)
                  (by simp [mainLoop, hmem, hsum, hs, hsyn, hvf, htt])
              | some tt =>
                by_cases httf : pyFalsy tt
                · exact hone [] [pidOf p] (Or.inl rfl)
                    (by simp [mainLoop, hmem, hsum, hs, hsyn, hvf, htt, httf])
                · by_cases hpub : (pub tt).success = true
                  · exact hone [(tt, pub tt)] [pidOf p] (Or.inl rfl)
                      (by simp [mainLoop, hmem, hsum, hs, hsyn, hvf, htt, httf, hpub])
                  · exact hone [(tt, pub tt)] [] (Or.inr rfl)
                      (by simp [mainLoop, hmem, hsum, hs, hsyn, hvf, htt, httf, hpub])

/-! ## Processed-set store lemmas -/

lemma linesAux_ne_nil : ∀ f : List Char, linesAux f ≠ [] := by
  intro f
  induction f with
  | nil => simp [linesAux]
  | cons c cs ih =>
    simp only [linesAux]
    by_cases hc : c = '\n'
    · simp [hc]
    · simp only [hc, if_neg hc]
      cases h : linesAux cs with
      | nil => simp
      | cons h0 t => simp

lemma linesAux_cons_nl (cs : List Char) : linesAux ('\n' :: cs) = [] :: linesAux cs := by
  simp [linesAux]

lemma linesAux_cons_other (c : Char) (cs : List Char) (hc : c ≠ '\n')
    (h0 : List Char) (t : List (List Char)) (he : linesAux cs = h0 :: t) :
    linesAux (c :: cs) = (c :: h0) :: t := by
  simp only [linesAux, if_neg hc, he]

lemma linesAux_length2 : ∀ f : List Char, f.getLast? = some '\n' →
    2 ≤ (linesAux f).length := by
  intro f
  induction f with
  | nil => intro h; simp at h
  | cons c cs ih =>
    intro h
    by_cases hc : c = '\n'
    · subst hc
      have h1 : 1 ≤ (linesAux cs).length :=
        List.length_pos.mpr (linesAux_ne_nil cs)
      rw [linesAux_cons_nl]
      simp only [List.length_cons]
      omega
    · have hcs : cs ≠ [] := by
        intro hnil
        rw [hnil] at h
        simp at h
        exact hc h
      obtain ⟨d, ds, rfl⟩ := List.exists_cons_of_ne_nil hcs
      have h2 : (d :: ds).getLast? = some '\n' := by
        simpa only [List.getLast?_cons_cons] using h
      have hlen := ih h2
      obtain ⟨h0, t, he⟩ := List.exists_cons_of_ne_nil (linesAux_ne_nil (d :: ds))
      rw [he] at hlen
      rw [linesAux_cons_other c (d :: ds) hc h0 t he]
      simp only [List.length_cons] at hlen ⊢
      omega

lemma linesAux_getLast : ∀ f : List Char, f.getLast? = some '\n' →
    (linesAux f).getLast? = some [] := by
  intro f
  induction f with
  | nil => intro h; simp at h
  | cons c cs ih =>
    intro h
    by_cases hcs : cs = []
    · subst hcs
      have hc : c = '\n' := by simpa using h
      subst hc
      simp [linesAux]
    · obtain ⟨d, ds, rfl⟩ := List.exists_cons_of_ne_nil hcs
      have h2 : (d :: ds).getLast? = some '\n' := by
        simpa only [List.getLast?_cons_cons] using h
      have hrec := ih h2
      obtain ⟨h0, t, he⟩ := List.exists_cons_of_ne_nil (linesAux_ne_nil (d :: ds))
      by_cases hc : c = '\n'
      · subst hc
        rw [he] at hrec
        rw [linesAux_cons_nl, he, List.getLast?_cons_cons]
        exact hrec
      · have hlen := linesAux_length2 (d :: ds) h2
        have ht : t ≠ [] := by
          intro hnil
          rw [he, hnil] at hlen
          simp at hlen
        obtain ⟨t0, ts, hte⟩ := List.exists_cons_of_ne_nil ht
        rw [he, hte] at hrec
        rw [List.getLast?_cons_cons] at hrec
        rw [linesAux_cons_other c (d :: ds) hc h0 t he, hte, List.getLast?_cons_cons]
        exact hrec

lemma linesAux_append (g : List Char) : ∀ f : List Char, f.getLast? = some '\n' →
    linesAux (f ++ g) = (linesAux f).dropLast ++ linesAux g := by
  intro f
  induction f with
  | nil => intro h; simp at h
  | cons c cs ih =>
    intro h
    by_cases hcs : cs = []
    · subst hcs
      have hc : c = '\n' := by simpa using h
      subst hc
      rw [List.cons_append, List.nil_append, linesAux_cons_nl]
      rw [show linesAux ['\n'] = [[], []] from by simp [linesAux]]
      simp
    · obtain ⟨d, ds, rfl⟩ := List.exists_cons_of_ne_nil hcs
      have h2 : (d :: ds).getLast? = some '\n' := by
        simpa only [List.getLast?_cons_cons] using h
      have hrec := ih h2
      obtain ⟨h0, t, he⟩ := List.exists_cons_of_ne_nil (linesAux_ne_nil (d :: ds))
      by_cases hc : c = '\n'
      · subst hc
        rw [List.cons_append, linesAux_cons_nl, hrec, linesAux_cons_nl, he]
        simp [List.dropLast_cons₂]
      · have hlen := linesAux_length2 (d :: ds) h2
        have ht : t ≠ [] := by
          intro hnil
          rw [he, hnil] at hlen
          simp at hlen
        obtain ⟨t0, ts, hte⟩ := List.exists_cons_of_ne_nil ht
        rw [he, hte] at hrec
        have hgapp : linesAux ((d :: ds) ++ g) = (h0 :: List.dropLast (t0 :: ts)) ++ linesAux g := by
          rw [hrec]
          simp [List.dropLast_cons₂]
        have hgne : linesAux ((d :: ds) ++ g) = h0 :: (List.dropLast (t0 :: ts) ++ linesAux g) := by
          rw [hgapp]
          simp
        rw [List.cons_append]
        rw [linesAux_cons_other c ((d :: ds) ++ g) hc h0
          (List.dropLast (t0 :: ts) ++ linesAux g) hgne]
        rw [linesAux_cons_other c (d :: ds) hc h0 t he, hte]
        simp [List.dropLast_cons₂]

lemma linesAux_no_nl : ∀ u : List Char, '\n' ∉ u →
    linesAux (u ++ ['\n']) = [u, []] := by
  intro u
  induction u with
  | nil => intro _; simp [linesAux]
  | cons c cu ih =>
    intro h
    have hc : c ≠ '\n' := by
      intro hcc
      exact h (by simp [hcc])
    have hrec := ih (by intro hm; exact h (List.mem_cons_of_mem c hm))
    rw [List.cons_append]
    rw [linesAux_cons_other c (cu ++ ['\n']) hc cu [[]] hrec]

/-! ## Claim theorems -/

/-- C9: commit-then-load round-trip.  For an identifier with no newline
that equals its own stripped form, committing it with
`save_processed_post` and then loading with `load_processed_posts` yields
a set containing it, and every identifier loadable before the commit is
still loadable after it.  The file hypothesis (empty or
newline-terminated) is the invariant of every store state the program
itself writes, since each commit appends a trailing newline. -/
theorem processed_roundtrip (f url : List Char)
    (h1 : '\n' ∉ url) (h2 : pyStrip url = url)
    (h3 : f = [] ∨ f.getLast? = some '\n') :
    url ∈ load_processed_posts (save_processed_post f url)
    ∧ ∀ x, x ∈ load_processed_posts f →
        x ∈ load_processed_posts (save_processed_post f url) := by
  have hnl := linesAux_no_nl url h1
  rcases h3 with rfl | h3
  · constructor
    · have hpfl : pyFileLines ([] ++ url ++ ['\n']) = [url] := by
        have hrw : ([] : List Char) ++ url ++ ['\n'] = url ++ ['\n'] := by simp
        rw [hrw]
        simp [pyFileLines, hnl]
      show url ∈ (pyFileLines (save_processed_post [] url)).map pyStrip
      rw [show save_processed_post [] url = [] ++ url ++ ['\n'] from rfl, hpfl]
      simp [h2]
    · intro x hx
      have hempty : load_processed_posts ([] : List Char) = [] := by
        simp [load_processed_posts, pyFileLines, linesAux]
      rw [hempty] at hx
      simp at hx
  · have hg := linesAux_append (url ++ ['\n']) f h3
    have hL4 := linesAux_getLast f h3
    have hsave : save_processed_post f url = f ++ (url ++ ['\n']) := by
      simp [save_processed_post]
    have hlin : linesAux (save_processed_post f url) =
        (linesAux f).dropLast ++ [url, []] := by
      rw [hsave, hg, hnl]
    have hsplit : (linesAux f).dropLast ++ [url, []] =
        ((linesAux f).dropLast ++ [url]) ++ [[]] := by simp
    have hpnew : pyFileLines (save_processed_post f url) =
        (linesAux f).dropLast ++ [url] := by
      simp only [pyFileLines, hlin]
      have hgl : ((linesAux f).dropLast ++ [url, []]).getLast? = some [] := by
        rw [hsplit]
        exact List.getLast?_concat _
      rw [if_pos hgl, hsplit, List.dropLast_concat]
    have hpold : pyFileLines f = (linesAux f).dropLast := by
      simp only [pyFileLines]
      rw [if_pos hL4]
    constructor
    · show url ∈ (pyFileLines (save_processed_post f url)).map pyStrip
      rw [hpnew, List.map_append]
      apply List.mem_append_right
      simp [h2]
    · intro x hx
      show x ∈ (pyFileLines (save_processed_post f url)).map pyStrip
      rw [hpnew, List.map_append]
      apply List.mem_append_left
      simp only [load_processed_posts, hpold] at hx
      exact hx

/-- C9 witness: commit `"b"` onto the file `"a\n"`; both `"b"` and the
previously stored `"a"` are loadable afterwards. -/
theorem processed_roundtrip_witness :
    "b".data ∈ load_processed_posts (save_processed_post "a\n".data "b".data)
    ∧ "a".data ∈ load_processed_posts (save_processed_post "a\n".data "b".data) := by
  have h := processed_roundtrip "a\n".data "b".data (by decide) (by decide)
    (Or.inr (by decide))
  exact ⟨h.1, h.2 "a".data (by decide)⟩

/-- C10: in every run at most one identifier is committed:
`save_processed_post` is called at most once by `main`, whatever the feed,
the processed-set, the synthesis outcomes and the publish outcomes. -/
theorem at_most_one_commit_per_run (googleKey : Bool) (processed : List String)
    (synth : FeedPost → Option JVal) (pub : JVal → PubTrace)
    (feed : List FeedPost) :
    (main_run googleKey processed synth pub feed).commits.length ≤ 1 := by
  cases googleKey with
  | false => simp [main_run]
  | true =>
    have h := (mainLoop_props processed synth pub feed).1
    simpa [main_run] using h

/-- C4: identifiers already in the processed-set are never re-selected —
they are never synthesized and never re-committed — and a feed whose items
are all processed yields a run with no synthesizer call, no publisher call
and no commit. -/
theorem processed_never_reselected (googleKey : Bool) (processed : List String)
    (synth : FeedPost → Option JVal) (pub : JVal → PubTrace)
    (feed : List FeedPost) :
    (∀ a, a ∈ processed →
        a ∉ (main_run googleKey processed synth pub feed).synthed
        ∧ a ∉ (main_run googleKey processed synth pub feed).commits)
    ∧ ((∀ p, p ∈ feed → pidOf p ∈ processed) →
        main_run googleKey processed synth pub feed = ⟨[], [], []⟩) := by
  cases googleKey with
  | false => refine ⟨fun a _ => ⟨?_, ?_⟩, fun _ => ?_⟩ <;> simp [main_run]
  | true =>
    obtain ⟨-, h2, h3, h4⟩ := mainLoop_props processed synth pub feed
    constructor
    · intro a ha
      constructor
      · intro hs
        exact (h2 a (by simpa [main_run] using hs)) ha
      · intro hc
        exact (h3 a (by simpa [main_run] using hc)) ha
    · intro hall
      simpa [main_run] using h4 hall

/-- C4 witness: a one-item feed whose item is already processed gives a
run with empty trace. -/
theorem processed_never_reselected_witness :
    ("uA" ∉ (main_run true ["uA"] synthNone pubNone [postNoSum]).synthed
      ∧ "uA" ∉ (main_run true ["uA"] synthNone pubNone [postNoSum]).commits)
    ∧ main_run true ["uA"] synthNone pubNone [postNoSum] = ⟨[], [], []⟩ := by
  have h := processed_never_reselected true ["uA"] synthNone pubNone [postNoSum]
  refine ⟨h.1 "uA" (by simp), h.2 ?_⟩
  intro p hp
  rw [List.mem_singleton.mp hp]
  decide

/-- C2 counterexample: the claim says that when the first unprocessed item
has no raw summary the run terminates without considering any subsequent
feed item.  On the concrete feed `[postNoSum, postGood]` with an empty
processed-set, `postNoSum` is the first unprocessed item and has no
summary, yet the run goes on to invoke the synthesizer on the second item
`postGood` (id `"uB"`): the loop body ends in `continue`, not `break`. -/
theorem one_item_per_run_cex :
    pidOf postNoSum ∉ ([] : List String)
    ∧ postNoSum.summaryOpt = none
    ∧ main_run true [] synthNone pubNone [postNoSum, postGood] =
        ⟨["uB"], [], []⟩ := by
  exact ⟨by simp, rfl, rfl⟩

/-- C2 amended: when the first unprocessed item has no raw summary (or an
empty one), `main` skips it and continues scanning with the rest of the
feed unchanged; when synthesis returns no result for it, `main` likewise
continues, only recording the synthesizer invocation.  The run does not
terminate on these skips. -/
theorem skip_continues_scan (processed : List String)
    (synth : FeedPost → Option JVal) (pub : JVal → PubTrace)
    (p : FeedPost) (ps : List FeedPost) (hmem : pidOf p ∉ processed) :
    ((p.summaryOpt = none ∨ p.summaryOpt = some "") →
        mainLoop processed synth pub (p :: ps) = mainLoop processed synth pub ps)
    ∧ (∀ s, p.summaryOpt = some s → s ≠ "" → synth p = none →
        mainLoop processed synth pub (p :: ps) =
          ⟨pidOf p :: (mainLoop processed synth pub ps).synthed,
           (mainLoop processed synth pub ps).pubEvents,
           (mainLoop processed synth pub ps).commits⟩) := by
  constructor
  · rintro (h | h) <;> simp [mainLoop, hmem, h]
  · intro s hs hs0 hsyn
    simp [mainLoop, hmem, hs, hs0, hsyn]

/-- C2 amended witness: skipping the summary-less head leaves the run
equal to the run on the tail. -/
theorem skip_continues_scan_witness :
    mainLoop [] synthNone pubNone [postNoSum, postGood] =
      mainLoop [] synthNone pubNone [postGood] := by
  exact (skip_continues_scan [] synthNone pubNone postNoSum [postGood]
    (by simp)).1 (Or.inl rfl)

/-- C5 counterexample: the claim says that when synthesis succeeds and the
result lacks `twitter_thread`, the item is committed.  But when the
backend returns the empty JSON object, `if not social_posts` treats the
empty dict as falsy, so the item is skipped with no commit (and the scan
continues), despite the field being absent from a successfully parsed
object. -/
theorem empty_object_skip_cex :
    dictGet (JVal.obj []) "twitter_thread" = none
    ∧ synthEmptyObj postC5 = some (JVal.obj [])
    ∧ main_run true [] synthEmptyObj pubNone [postC5] = ⟨["u5"], [], []⟩ :=
  ⟨rfl, rfl, rfl⟩

/-- C5 amended: when synthesis returns a truthy (non-empty) object whose
`twitter_thread` field is missing or falsy, `main` commits the item's
identifier without invoking the Publisher and terminates (the trace does
not depend on the remaining feed); a synthesized empty object is instead
treated like a synthesis failure and skipped without commit. -/
theorem no_thread_commit_without_publish (processed : List String)
    (synth : FeedPost → Option JVal) (pub : JVal → PubTrace) (p : FeedPost)
    (ps : List FeedPost) (s : String) (v : JVal)
    (hmem : pidOf p ∉ processed) (hs : p.summaryOpt = some s) (hs0 : s ≠ "")
    (hsyn : synth p = some v) (hvf : pyFalsy v = false)
    (htt : optTruthy (dictGet v "twitter_thread") = false) :
    mainLoop processed synth pub (p :: ps) = ⟨[pidOf p], [], [pidOf p]⟩ := by
  cases hget : dictGet v "twitter_thread" with
  | none => simp [mainLoop, hmem, hs, hs0, hsyn, hvf, hget]
  | some tt =>
    have httf : pyFalsy tt = true := by
      rw [hget] at htt
      simpa [optTruthy] using htt
    simp [mainLoop, hmem, hs, hs0, hsyn, hvf, hget, httf]

/-- C5 amended witness: a truthy object without the `twitter_thread` key
gets the item committed with no publisher event. -/
theorem no_thread_commit_without_publish_witness :
    mainLoop [] synthNoThread pubNone [postC5] = ⟨["u5"], [], ["u5"]⟩ := by
  exact no_thread_commit_without_publish [] synthNoThread pubNone postC5 []
    "s5" (JVal.obj [("x", JVal.num 1)]) (by simp) rfl (by decide) rfl rfl rfl

/-- C1: when a `create_tweet` call fails at segment index `k` (with all
earlier calls succeeding with non-empty ids), the run terminates — the
trace does not depend on the remaining feed — with no commit, a single
publisher invocation, and exactly the `k` segments before the failure
posted; no later segment is attempted. -/
theorem publish_failure_no_commit (processed : List String)
    (synth : FeedPost → Option JVal) (oracle : Nat → Option String)
    (p : FeedPost) (s : String) (v : JVal) (segs : List JVal) (k : Nat)
    (hmem : pidOf p ∉ processed) (hs : p.summaryOpt = some s) (hs0 : s ≠ "")
    (hsyn : synth p = some v) (hvf : pyFalsy v = false)
    (htt : dictGet v "twitter_thread" = some (JVal.arr segs))
    (hid : ∀ m t, oracle m = some t → t ≠ "")
    (hk : k < segs.length) (hfail : oracle k = none)
    (hbef : ∀ m, m < k → (oracle m).isSome) :
    (∀ ps, mainLoop processed synth
        (fun j => post_to_twitter true oracle (asPyList j)) (p :: ps) =
      ⟨[pidOf p],
       [(JVal.arr segs, ⟨chainFrom oracle (segs.take k) 0 none, false⟩)],
       []⟩)
    ∧ (chainFrom oracle (segs.take k) 0 none).length = k := by
  have hsegs : segs ≠ [] := by
    intro hnil
    rw [hnil] at hk
    simp at hk
  have httf : pyFalsy (JVal.arr segs) = false := by
    simp [pyFalsy, hsegs]
  have hchain := postAux_fail_chain oracle hid segs 0 none k
    (by intro t ht; cases ht) hk (by simpa using hfail)
    (by intro m hm; simpa using hbef m hm)
  have hpub : post_to_twitter true oracle (asPyList (JVal.arr segs)) =
      ⟨chainFrom oracle (segs.take k) 0 none, false⟩ := by
    show post_to_twitter true oracle segs = _
    simp [post_to_twitter, hchain]
  constructor
  · intro ps
    simp [mainLoop, hmem, hs, hs0, hsyn, hvf, htt, httf, hpub]
  · rw [chainFrom_length]
    simp [List.length_take]
    omega

/-- C1 witness: a three-segment thread whose second `create_tweet` call
raises; the run makes exactly one publisher call, posts exactly the first
segment, and commits nothing. -/
theorem publish_failure_no_commit_witness :
    mainLoop [] synthC1 (fun j => post_to_twitter true oracleC1 (asPyList j))
        [postC1] =
      ⟨["u1"],
       [(JVal.arr segsC1, ⟨[(JVal.str "s1", none)], false⟩)],
       []⟩
    ∧ ([(JVal.str "s1", (none : Option String))] : List (JVal × Option String)).length = 1 := by
  have hid : ∀ m t, oracleC1 m = some t → t ≠ "" := by
    intro m t h
    by_cases hm : m = 0
    · subst hm
      rw [show oracleC1 0 = some "100" from rfl, Option.some_inj] at h
      subst h
      decide
    · rw [show oracleC1 m = none from by simp [oracleC1, hm]] at h
      cases h
  have hbef : ∀ m, m < 1 → (oracleC1 m).isSome := by
    intro m hm
    have hm0 : m = 0 := by omega
    subst hm0
    decide
  have h := publish_failure_no_commit [] synthC1 oracleC1 postC1 "sum1"
    (JVal.obj [("twitter_thread", JVal.arr segsC1)]) segsC1 1
    (by simp) rfl (by decide) rfl rfl rfl hid (by decide) rfl hbef
  exact ⟨h.1 [], rfl⟩

/-- C7: with platform-returned ids non-empty, `post_to_twitter` reports
success exactly when every `create_tweet` call succeeds, and on success
the posted list carries the thread's segments in order, the first as a
top-level post (no reply parent) and each subsequent one as a reply to
the id returned for the immediately preceding segment. -/
theorem publish_linear_reply_chain (oracle : Nat → Option String)
    (thread : List JVal)
    (hid : ∀ k s, oracle k = some s → s ≠ "") (hne : thread ≠ []) :
    ((post_to_twitter true oracle thread).success = true ↔
        ∀ m, m < thread.length → (oracle m).isSome)
    ∧ ((post_to_twitter true oracle thread).success = true →
        (post_to_twitter true oracle thread).posted.map Prod.fst = thread
        ∧ ((post_to_twitter true oracle thread).posted.map Prod.snd)[0]? =
            some none
        ∧ ∀ k, k + 1 < thread.length →
            ((post_to_twitter true oracle thread).posted.map Prod.snd)[k + 1]? =
              some (oracle k)) := by
  have hpt : post_to_twitter true oracle thread =
      ⟨(postAux oracle thread 0 none).1, (postAux oracle thread 0 none).2⟩ := by
    simp [post_to_twitter]
  have hiff : (post_to_twitter true oracle thread).success = true ↔
      ∀ m, m < thread.length → (oracle m).isSome := by
    constructor
    · intro h m hm
      rw [hpt] at h
      have := postAux_success_all oracle thread 0 none h m hm
      simpa using this
    · intro hall
      have := postAux_eq_chain oracle hid thread 0 none
        (by intro t ht; cases ht) (by intro m hm; simpa using hall m hm)
      rw [hpt]
      simp [this]
  refine ⟨hiff, ?_⟩
  intro h
  have hall := hiff.mp h
  have hch := postAux_eq_chain oracle hid thread 0 none
    (by intro t ht; cases ht) (by intro m hm; simpa using hall m hm)
  have hposted : (post_to_twitter true oracle thread).posted =
      chainFrom oracle thread 0 none := by
    rw [hpt]
    simp [hch]
  refine ⟨?_, ?_, ?_⟩
  · rw [hposted, chainFrom_map_fst]
  · rw [hposted]
    obtain ⟨t0, ts, rfl⟩ := List.exists_cons_of_ne_nil hne
    simp [chainFrom]
  · intro k hk
    rw [hposted]
    have := chainFrom_snd_succ oracle thread 0 none k hk
    simpa using this

/-- C7 witness: a two-segment thread with both calls succeeding gives a
successful publish; the first post has no parent and the second replies to
the id the first call returned. -/
theorem publish_linear_reply_chain_witness :
    (post_to_twitter true oracleW7 threadW7).success = true
    ∧ (post_to_twitter true oracleW7 threadW7).posted.map Prod.fst = threadW7
    ∧ ((post_to_twitter true oracleW7 threadW7).posted.map Prod.snd)[0]? =
        some none
    ∧ ((post_to_twitter true oracleW7 threadW7).posted.map Prod.snd)[1]? =
        some (oracleW7 0) := by
  have hid : ∀ m t, oracleW7 m = some t → t ≠ "" := by
    intro m t h
    by_cases h0 : m = 0
    · subst h0
      rw [show oracleW7 0 = some "1" from rfl, Option.some_inj] at h
      subst h
      decide
    · by_cases h1 : m = 1
      · subst h1
        rw [show oracleW7 1 = some "2" from rfl, Option.some_inj] at h
        subst h
        decide
      · rw [show oracleW7 m = none from by simp [oracleW7, h0, h1]] at h
        cases h
  have hne : threadW7 ≠ [] := by simp [threadW7]
  have h := publish_linear_reply_chain oracleW7 threadW7 hid hne
  have hall : ∀ m, m < threadW7.length → (oracleW7 m).isSome := by
    intro m hm
    have hm2 : m < 2 := by simpa [threadW7] using hm
    interval_cases m <;> decide
  have hsucc := h.1.mpr hall
  obtain ⟨hfst, hzero, hsnd⟩ := h.2 hsucc
  exact ⟨hsucc, hfst, hzero, hsnd 0 (by simp [threadW7])⟩

/-- C3 counterexample: the claim says a parsed JSON object lacking
`twitter_thread` is retried and that synthesize only returns on an attempt
containing the field.  On the concrete response `textA`, which parses to
an object with only the key `"a"`, `summarize_with_gemini` returns that
object on the first attempt — `return json.loads(json_string)` performs no
field check. -/
theorem missing_field_returned_cex :
    summarize_with_gemini parseA oracleTextA = ⟨some objA, 0, 1⟩
    ∧ dictGet objA "twitter_thread" = none :=
  ⟨rfl, rfl⟩

/-- C3 amended: within one synthesis call, the first attempt whose
response text yields an extractable substring that `json.loads` parses
returns that parsed value immediately — whether or not it contains
`twitter_thread`; the missing-field case is not retried but handed to the
caller (`main` commits it without publishing, see the C5 theorems). -/
theorem synthesize_returns_first_parse (parse : List Char → Option JVal)
    (oracle : Nat → GenResult) (t ex : List Char) (v : JVal)
    (h0 : oracle 0 = GenResult.text t) (hex : extractJson t = some ex)
    (hp : parse ex = some v) :
    summarize_with_gemini parse oracle = ⟨some v, 0, 1⟩ := by
  have hstep : attStep parse (oracle 0) = AttStep.success v := by
    rw [h0]
    simp [attStep, hex, hp]
  simp [summarize_with_gemini, summarizeFrom, hstep]

/-- C3 amended witness: the field-less object `objA` is returned on the
first attempt. -/
theorem synthesize_returns_first_parse_witness :
    summarize_with_gemini parseA oracleTextA = ⟨some objA, 0, 1⟩
    ∧ dictGet objA "twitter_thread" = none :=
  ⟨synthesize_returns_first_parse parseA oracleTextA textA textA objA rfl rfl rfl,
   rfl⟩

/-- C6 counterexample: the claim says a 2-second delay occurs after each
failed attempt except the last, so three consecutive failures incur
exactly two delays.  With three empty/blocked responses, each iteration
hits `continue`, which skips the `time.sleep(2)` at the bottom of the
loop: three failed attempts occur and zero delays. -/
theorem silent_retry_no_delay_cex :
    summarize_with_gemini (fun _ => none) (fun _ => GenResult.emptyResp) =
      ⟨none, 0, 3⟩
    ∧ (summarize_with_gemini (fun _ => none) (fun _ => GenResult.emptyResp)).sleeps ≠ 2 := by
  exact ⟨rfl, by decide⟩

/-- C6 amended: the synthesizer makes at most 3 attempts; the 2-second
delay is executed exactly after those failed attempts that raise an
exception (`json.loads` failure or backend error) and are not attempt
index 2, while empty-response and missing-brace failures retry with no
delay; three consecutive exception-class failures incur exactly two
delays; a first-attempt success returns immediately with one attempt and
no delay. -/
theorem synthesize_retry_schedule (parse : List Char → Option JVal)
    (oracle : Nat → GenResult) :
    (summarize_with_gemini parse oracle).tries ≤ 3
    ∧ (summarize_with_gemini parse oracle).sleeps =
        (sleepIdx parse oracle 0 (summarize_with_gemini parse oracle).tries).length
    ∧ (∀ v, attStep parse (oracle 0) = AttStep.success v →
        summarize_with_gemini parse oracle = ⟨some v, 0, 1⟩)
    ∧ ((∀ i, i < 3 → attStep parse (oracle i) = AttStep.retrySleep) →
        summarize_with_gemini parse oracle = ⟨none, 2, 3⟩) := by
  refine ⟨?_, ?_, ?_, ?_⟩
  · exact summarizeFrom_tries_le parse oracle 3 0
  · exact summarizeFrom_sleeps_eq parse oracle 3 0
  · intro v hv
    simp [summarize_with_gemini, summarizeFrom, hv]
  · intro h
    simp [summarize_with_gemini, summarizeFrom,
      h 0 (by omega), h 1 (by omega), h 2 (by omega)]

/-- C6 amended witness: three backend exceptions give three attempts, no
result and exactly two delays, within the 3-attempt bound. -/
theorem synthesize_retry_schedule_witness :
    summarize_with_gemini (fun _ => none) (fun _ => GenResult.exn) = ⟨none, 2, 3⟩
    ∧ (summarize_with_gemini (fun _ => none) (fun _ => GenResult.exn)).tries ≤ 3 := by
  have h := synthesize_retry_schedule (fun _ => none) (fun _ => GenResult.exn)
  exact ⟨h.2.2.2 (fun i _ => rfl), h.1⟩

/-- C8: for a response text in which both braces occur, the synthesizer
extracts exactly the substring from the first opening brace through the
last closing brace and parses it; when that parse succeeds on the first
attempt the parsed object is returned immediately — so a JSON object
wrapped in extraneous prose or markdown fencing still yields the parsed
object. -/
theorem extraction_first_to_last_brace (parse : List Char → Option JVal)
    (t : List Char) (i j : Nat)
    (h1 : firstIdxOf t lbrace = some i) (h2 : lastIdxOf t rbrace = some j) :
    extractJson t = some ((t.drop i).take (j + 1 - i))
    ∧ ∀ (oracle : Nat → GenResult) (v : JVal), oracle 0 = GenResult.text t →
        parse ((t.drop i).take (j + 1 - i)) = some v →
        summarize_with_gemini parse oracle = ⟨some v, 0, 1⟩ := by
  have hex : extractJson t = some ((t.drop i).take (j + 1 - i)) := by
    simp [extractJson, h1, h2]
  refine ⟨hex, ?_⟩
  intro oracle v h0 hp
  have hstep : attStep parse (oracle 0) = AttStep.success v := by
    rw [h0]
    simp [attStep, hex, hp]
  simp [summarize_with_gemini, summarizeFrom, hstep]

/-- C8 witness: the markdown-fenced response `fenceT` has its first
opening brace at index 21 and last closing brace at index 48; the
extracted slice is exactly the JSON body, and a parse oracle agreeing with
`json.loads` on it makes the synthesizer return the parsed object at the
first attempt. -/
theorem extraction_first_to_last_brace_witness :
    extractJson fenceT = some ((fenceT.drop 21).take (48 + 1 - 21))
    ∧ summarize_with_gemini parseFence oracleFence = ⟨some objFence, 0, 1⟩ := by
  have h := extraction_first_to_last_brace parseFence fenceT 21 48 (by decide)
    (by decide)
  exact ⟨h.1, h.2 oracleFence objFence rfl rfl⟩
